import Mathlib

/-!
Verification of the frequent-pattern-mining dashboard (`src/app.py`).

The repository file `app.py` is a thin UI shell: it builds a boolean
transaction table, dispatches to the Apriori or FP-Growth mining engine,
optionally filters the mined itemsets to a fixed length, and derives
association rules.  The mining/rule core itself (the `mlxtend` calls) is not
part of the repository sources, so those operations are modelled from the
specification; the length filter and the one-hot encoding step are embedded
directly from `app.py`.

Items are column indices (naturals), a transaction is the finite set of items
present in one row, and supports are rationals.
-/

/-- Error taxonomy of the core, from the spec's §7:
`invalidInput` (malformed/empty transaction table), `invalidParameter`
(support or k out of domain), `missingSupport` (rule metric needs a subset's
support absent from the known records). -/
inductive MiningError where
  | invalidInput
  | invalidParameter
  | missingSupport
  deriving DecidableEq, Repr

/-- Number of transactions in `db` containing every item of `S`
(the absolute support count). -/
def countIn (db : List (Finset ℕ)) (S : Finset ℕ) : ℕ :=
  db.countP (fun t => decide (S ⊆ t))

/-- Relative support of itemset `S` in transaction list `db`: the fraction
with the absolute count as numerator and the number of transactions as
denominator (`mkRat a b` is the rational `a / b`). -/
def ratSupport (db : List (Finset ℕ)) (S : Finset ℕ) : ℚ :=
  mkRat (countIn db S) db.length

/-- Modelled from the spec: the Apriori join step (§4.2 step 2) — candidates
for level `k+1` are unions of two frequent `k`-itemsets sharing exactly `k-1`
items, i.e. unions of cardinality `k+1`. -/
def aprioriJoin (L : Finset (Finset ℕ)) (k : ℕ) : Finset (Finset ℕ) :=
  ((L ×ˢ L).image (fun p => p.1 ∪ p.2)).filter (fun c => c.card = k + 1)

/-- Modelled from the spec: the Apriori prune step (§4.2 step 3) — discard a
candidate if some one-element-smaller subset is not frequent. -/
def aprioriPrune (L : Finset (Finset ℕ)) (cand : Finset (Finset ℕ)) :
    Finset (Finset ℕ) :=
  cand.filter (fun c => ∀ x ∈ c, c.erase x ∈ L)

/-- Modelled from the spec: keep the candidates whose relative support in `db`
reaches `ms` (§4.2 steps 1 and 4). -/
def supportFilter (db : List (Finset ℕ)) (ms : ℚ)
    (cand : Finset (Finset ℕ)) : Finset (Finset ℕ) :=
  cand.filter (fun c => ms ≤ ratSupport db c)

/-- Modelled from the spec: the frequent `k`-itemsets found by the level-wise
Apriori loop (§4.2): level 1 is the frequent singletons over the item
universe `U`; level `k+1` is join, prune, then support-count over level `k`. -/
def aprioriLevel (db : List (Finset ℕ)) (U : Finset ℕ) (ms : ℚ) :
    ℕ → Finset (Finset ℕ)
  | 0 => ∅
  | 1 => supportFilter db ms (U.image (fun i => {i}))
  | (k + 2) =>
      supportFilter db ms
        (aprioriPrune (aprioriLevel db U ms (k + 1))
          (aprioriJoin (aprioriLevel db U ms (k + 1)) (k + 1)))

/-- Modelled from the spec: the Apriori engine `mine(store, minSupport)`
(§4.2) — run the level-wise loop (levels beyond the universe size are empty,
so stopping at `U.card` is the same as stopping when a level comes up empty)
and attach each itemset's relative support. -/
def aprioriMine (db : List (Finset ℕ)) (U : Finset ℕ) (ms : ℚ) :
    Finset (Finset ℕ × ℚ) :=
  ((Finset.range U.card).biUnion (fun k => aprioriLevel db U ms (k + 1))).image
    (fun S => (S, ratSupport db S))

/-- Modelled from the spec: the FP-Growth engine's recursive conditional
mining (§4.3–§4.4), with the prefix tree elided: a conditional database is
carried explicitly as the list of transactions containing the current suffix.
For the next item `i` of the processing order, if `i`'s count in the current
conditional database reaches `minSupport` (count over the global transaction
total `n`), emit `{i} ∪ suffix` with that support and recurse into `i`'s
conditional database with the enlarged suffix; then process the remaining
items at this level.  Items whose count falls below threshold contribute
nothing, which is the spec's per-level re-application of `minSupport`. -/
def fpg (n : ℕ) (ms : ℚ) : List ℕ → List (Finset ℕ) → Finset ℕ →
    List (Finset ℕ × ℚ)
  | [], _, _ => []
  | i :: rest, db, sfx =>
      (if ms ≤ mkRat (countIn db {i}) n then
        (insert i sfx, mkRat (countIn db {i}) n) ::
          fpg n ms rest (db.filter (fun t => decide (i ∈ t))) (insert i sfx)
      else []) ++ fpg n ms rest db sfx

/-- The members of a finite set of naturals, listed in increasing order. -/
def finsetAsList (S : Finset ℕ) : List ℕ :=
  (List.range (S.sup id + 1)).filter (fun j => decide (j ∈ S))

/-- Modelled from the spec: the FP-Growth item processing order (§4.3 step 1) —
items sorted by descending global support, ties broken by the fixed item
order (insertion sort is stable). -/
def fpgItems (db : List (Finset ℕ)) (U : Finset ℕ) : List ℕ :=
  List.insertionSort (fun a b => countIn db {b} ≤ countIn db {a})
    (finsetAsList U)

/-- Modelled from the spec: the FP-Growth engine `mine(store, minSupport)`
(§4.4), starting from the full transaction list and the empty suffix. -/
def fpgrowthMine (db : List (Finset ℕ)) (U : Finset ℕ) (ms : ℚ) :
    List (Finset ℕ × ℚ) :=
  fpg db.length ms (fpgItems db U) db ∅

/-- Input accepted from the UI collaborator (§6): a rectangular table of
boolean presence values; items are column indices `0, …, nCols - 1`. -/
structure BoolTable where
  nCols : ℕ
  rows : List (List Bool)
  deriving DecidableEq, Repr

/-- Items present in one row: the column indices holding `true`. -/
def rowItems (r : List Bool) : Finset ℕ :=
  (Finset.range r.length).filter (fun j => r.getD j false = true)

/-- The Transaction Store (§3): transaction sequence plus item universe. -/
structure TransStore where
  transactions : List (Finset ℕ)
  itemUniverse : Finset ℕ
  deriving DecidableEq

/-- Modelled from the spec: Transaction Store construction (§4.1) — fails with
`InvalidInputError` when the table has zero rows or zero columns, otherwise
yields the transaction sequence and the item universe. -/
def buildStore (tbl : BoolTable) : Except MiningError TransStore :=
  if tbl.rows.length = 0 ∨ tbl.nCols = 0 then
    Except.error MiningError.invalidInput
  else
    Except.ok ⟨tbl.rows.map rowItems, Finset.range tbl.nCols⟩

/-- The two mining algorithms selectable in the sidebar (`app.py` line 39). -/
inductive MiningAlg where
  | aprioriAlg
  | fpgrowthAlg
  deriving DecidableEq, Repr

/-- Modelled from the spec: the mining operation with the engine dispatch of
`app.py` lines 78–83 and the parameter domain check of §4.2 —
`minSupport ≤ 0` or `> 1` fails with `InvalidParameterError`, otherwise the
selected engine mines the store. -/
def mineE (alg : MiningAlg) (store : TransStore) (ms : ℚ) :
    Except MiningError (Finset (Finset ℕ × ℚ)) :=
  if ms ≤ 0 ∨ 1 < ms then Except.error MiningError.invalidParameter
  else
    Except.ok (match alg with
      | MiningAlg.aprioriAlg =>
          aprioriMine store.transactions store.itemUniverse ms
      | MiningAlg.fpgrowthAlg =>
          (fpgrowthMine store.transactions store.itemUniverse ms).toFinset)

/-- The mining pipeline (§2 control flow): build the Transaction Store, then
mine; every component error propagates to the caller unmodified (§7). -/
def pipeline (alg : MiningAlg) (tbl : BoolTable) (ms : ℚ) :
    Except MiningError (Finset (Finset ℕ × ℚ)) :=
  match buildStore tbl with
  | Except.error e => Except.error e
  | Except.ok store => mineE alg store ms

/-- The length post-filter of `app.py` lines 86–88: keep exactly the records
whose itemset has `k` members (a helper `length` column is added and compared
to `k` there; records and supports themselves are untouched). -/
def postFilter (records : List (Finset ℕ × ℚ)) (k : ℕ) :
    List (Finset ℕ × ℚ) :=
  records.filter (fun r => decide (r.1.card = k))

/-- The interest measures of §4.6 selectable for rule filtering. -/
inductive RuleMetric where
  | confidence
  | lift
  | leverage
  | conviction
  deriving DecidableEq, Repr

/-- A derived association rule (§3): antecedent, consequent and the interest
measures; `conviction = none` stands for the infinite value at confidence 1. -/
structure MiningRule where
  antecedent : Finset ℕ
  consequent : Finset ℕ
  support : ℚ
  confidence : ℚ
  lift : ℚ
  leverage : ℚ
  conviction : Option ℚ
  deriving DecidableEq

/-- Support of an itemset looked up from the frequent-itemset records. -/
def lookupSupport (records : List (Finset ℕ × ℚ)) (S : Finset ℕ) :
    Option ℚ :=
  (records.find? (fun r => decide (r.1 = S))).map (fun r => r.2)

/-- Modelled from the spec: build the candidate rule `A → S \ A` out of a
record `(S, sup)` (§4.6) — support is the record's own, metrics per the spec
formulas; fails with `MissingSupportError` when the support of the antecedent
or of the consequent is not among the records. -/
def mkRule (records : List (Finset ℕ × ℚ)) (S : Finset ℕ) (sup : ℚ)
    (A : Finset ℕ) : Except MiningError MiningRule :=
  match lookupSupport records A, lookupSupport records (S \ A) with
  | some sa, some sc =>
      Except.ok (MiningRule.mk A (S \ A) sup (sup / sa) (sup / sa / sc)
        (sup - sa * sc)
        (if sup / sa = 1 then none else some ((1 - sc) / (1 - sup / sa))))
  | _, _ => Except.error MiningError.missingSupport

/-- All subsets of a finite set of naturals, listed without duplicates. -/
def subsetsList (S : Finset ℕ) : List (Finset ℕ) :=
  ((finsetAsList S).sublists).map List.toFinset

/-- Modelled from the spec: the candidate antecedents (§4.6) — for every
record, every nonempty proper subset of its itemset.  (Records with fewer
than two items contribute nothing: they have no nonempty proper subsets.) -/
def ruleCandidates (records : List (Finset ℕ × ℚ)) :
    List (Finset ℕ × ℚ × Finset ℕ) :=
  records.flatMap (fun r =>
    ((subsetsList r.1).filter
        (fun A => decide (A.Nonempty ∧ A ≠ r.1))).map
      (fun A => (r.1, r.2, A)))

/-- Build all candidate rules, propagating the first failure. -/
def buildRules (records : List (Finset ℕ × ℚ)) :
    List (Finset ℕ × ℚ × Finset ℕ) → Except MiningError (List MiningRule)
  | [] => Except.ok []
  | c :: cs =>
      match mkRule records c.1 c.2.1 c.2.2 with
      | Except.error e => Except.error e
      | Except.ok r =>
          match buildRules records cs with
          | Except.error e => Except.error e
          | Except.ok rs => Except.ok (r :: rs)

/-- Does the chosen metric of a rule reach the threshold (§4.6)?  An infinite
conviction exceeds every threshold. -/
def metricHolds (m : RuleMetric) (θ : ℚ) (r : MiningRule) : Bool :=
  match m with
  | RuleMetric.confidence => decide (θ ≤ r.confidence)
  | RuleMetric.lift => decide (θ ≤ r.lift)
  | RuleMetric.leverage => decide (θ ≤ r.leverage)
  | RuleMetric.conviction =>
      match r.conviction with
      | none => true
      | some v => decide (θ ≤ v)

/-- Modelled from the spec: `rules(records, metric, minThreshold)` (§4.6) —
enumerate the candidate rules and keep those whose chosen metric reaches the
threshold.  (`app.py` line 95 invokes this operation with metric `lift` and
threshold `1.0`.) -/
def associationRules (records : List (Finset ℕ × ℚ)) (m : RuleMetric)
    (θ : ℚ) : Except MiningError (List MiningRule) :=
  match buildRules records (ruleCandidates records) with
  | Except.error e => Except.error e
  | Except.ok rs => Except.ok (rs.filter (metricHolds m θ))

/-- A column of the uploaded table: numeric (untouched by the encoder) or
object/string-valued (one-hot encoded) — the dtype dispatch of `app.py`
lines 70–72. -/
inductive TableCol where
  | num : String → List Int → TableCol
  | obj : String → List String → TableCol
  deriving DecidableEq, Repr

/-- Does the column have object dtype? -/
def isObjCol : TableCol → Bool
  | TableCol.num _ _ => false
  | TableCol.obj _ _ => true

/-- One column's image under the one-hot encoding (`pd.get_dummies`,
`app.py` line 72): a numeric column is kept unchanged; an object column is
replaced by one boolean indicator column per distinct value. -/
def dummify : TableCol → List TableCol
  | TableCol.num nm vs => [TableCol.num nm vs]
  | TableCol.obj nm vs =>
      vs.dedup.map (fun v =>
        TableCol.num (nm ++ "_" ++ v)
          (vs.map (fun x => if x = v then (1 : Int) else 0)))

/-- The numeric values carried by a column (empty for an object column). -/
def colVals : TableCol → List Int
  | TableCol.num _ vs => vs
  | TableCol.obj _ _ => []

/-- One-hot encode a whole table column by column. -/
def getDummies (df : List TableCol) : List TableCol := df.flatMap dummify

/-- The encoding step of `app.py` lines 70–72: if any column has object
dtype, one-hot encode the whole table; otherwise pass it through untouched. -/
def encodeTable (df : List TableCol) : List TableCol :=
  if df.any isObjCol then getDummies df else df

/-- Two sample transactions: items 0 and 1 co-occur in the first, item 2
alone in the second; every support of interest is 1/2. -/
def sampleDb : List (Finset ℕ) := [{0, 1}, {2}]

/-- Frequent-itemset records carrying the true supports of `sampleDb`. -/
def sampleRecords : List (Finset ℕ × ℚ) :=
  [({0, 1}, mkRat 1 2), ({0}, mkRat 1 2), ({1}, mkRat 1 2)]

/-- The rule `{0} → {1}` generated from `sampleRecords`, with the metric
expressions as the rule generator builds them. -/
def sampleRule1 : MiningRule :=
  MiningRule.mk {0} ({0, 1} \ {0}) (mkRat 1 2) (mkRat 1 2 / mkRat 1 2)
    (mkRat 1 2 / mkRat 1 2 / mkRat 1 2)
    (mkRat 1 2 - mkRat 1 2 * mkRat 1 2)
    (if mkRat 1 2 / mkRat 1 2 = 1 then none
     else some ((1 - mkRat 1 2) / (1 - mkRat 1 2 / mkRat 1 2)))

/-- The rule `{1} → {0}` generated from `sampleRecords`. -/
def sampleRule2 : MiningRule :=
  MiningRule.mk {1} ({0, 1} \ {1}) (mkRat 1 2) (mkRat 1 2 / mkRat 1 2)
    (mkRat 1 2 / mkRat 1 2 / mkRat 1 2)
    (mkRat 1 2 - mkRat 1 2 * mkRat 1 2)
    (if mkRat 1 2 / mkRat 1 2 = 1 then none
     else some ((1 - mkRat 1 2) / (1 - mkRat 1 2 / mkRat 1 2)))

theorem countIn_anti (db : List (Finset ℕ)) {S1 S2 : Finset ℕ}
    (h : S1 ⊆ S2) : countIn db S2 ≤ countIn db S1 := by
  refine List.countP_mono_left (fun t _ ht => ?_)
  simp only [decide_eq_true_eq] at ht ⊢
  exact h.trans ht

theorem ratSupport_anti (db : List (Finset ℕ)) {S1 S2 : Finset ℕ}
    (h : S1 ⊆ S2) : ratSupport db S2 ≤ ratSupport db S1 := by
  unfold ratSupport
  rw [Rat.mkRat_eq_div, Rat.mkRat_eq_div]
  have hl : (0 : ℚ) ≤ ((db.length : ℤ) : ℚ) := by positivity
  have hc : ((countIn db S2 : ℤ) : ℚ) ≤ ((countIn db S1 : ℤ) : ℚ) := by
    exact_mod_cast countIn_anti db h
  exact div_le_div_of_nonneg_right hc hl

/-- The level-wise Apriori loop computes exactly the frequent `k`-itemsets:
the subsets of the universe of cardinality `k` whose support reaches `ms`. -/
theorem aprioriLevel_eq (db : List (Finset ℕ)) (U : Finset ℕ) (ms : ℚ) :
    ∀ k, aprioriLevel db U ms (k + 1) =
      U.powerset.filter (fun S => S.card = k + 1 ∧ ms ≤ ratSupport db S) := by
  intro k
  induction k with
  | zero =>
      ext S
      simp only [aprioriLevel, supportFilter, Finset.mem_filter,
        Finset.mem_image, Finset.mem_powerset]
      constructor
      · rintro ⟨⟨i, hi, rfl⟩, hms⟩
        exact ⟨Finset.singleton_subset_iff.mpr hi,
          by simp, hms⟩
      · rintro ⟨hSU, hcard, hms⟩
        obtain ⟨i, rfl⟩ := Finset.card_eq_one.mp (by simpa using hcard)
        exact ⟨⟨i, Finset.singleton_subset_iff.mp hSU, rfl⟩, hms⟩
  | succ k ih =>
      ext S
      simp only [aprioriLevel, supportFilter, aprioriPrune, aprioriJoin,
        Finset.mem_filter, Finset.mem_image, Finset.mem_product,
        Finset.mem_powerset, Finset.mem_product, Prod.exists] at *
      constructor
      · rintro ⟨⟨⟨⟨A, B, hAB, rfl⟩, hcard⟩, _⟩, hms⟩
        rw [ih] at hAB
        simp only [Finset.mem_filter, Finset.mem_powerset] at hAB
        exact ⟨Finset.union_subset hAB.1.1 hAB.2.1, hcard, hms⟩
      · rintro ⟨hSU, hcard, hms⟩
        have hmemL : ∀ x ∈ S, S.erase x ∈ aprioriLevel db U ms (k + 1) := by
          intro x hx
          rw [ih]
          simp only [Finset.mem_filter, Finset.mem_powerset]
          refine ⟨(Finset.erase_subset x S).trans hSU, ?_, ?_⟩
          · rw [Finset.card_erase_of_mem hx, hcard]
            omega
          · exact le_trans hms (ratSupport_anti db (Finset.erase_subset x S))
        have h2 : 1 < S.card := by omega
        obtain ⟨x, hx, y, hy, hxy⟩ := Finset.one_lt_card.mp h2
        refine ⟨⟨⟨⟨S.erase x, S.erase y, ⟨hmemL x hx, hmemL y hy⟩, ?_⟩, ?_⟩,
          fun z hz => hmemL z hz⟩, hms⟩
        · ext z
          simp only [Finset.mem_union, Finset.mem_erase]
          constructor
          · rintro (⟨_, hz⟩ | ⟨_, hz⟩) <;> exact hz
          · intro hz
            by_cases hzx : z = x
            · exact Or.inr ⟨by rw [hzx]; exact hxy, hz⟩
            · exact Or.inl ⟨hzx, hz⟩
        · exact hcard

/-- Characterization of the Apriori engine's output: exactly the pairs
`(S, support S)` for nonempty `S ⊆ U` whose support reaches `ms`. -/
theorem mem_aprioriMine {db : List (Finset ℕ)} {U : Finset ℕ} {ms : ℚ}
    {p : Finset ℕ × ℚ} :
    p ∈ aprioriMine db U ms ↔
      ∃ S : Finset ℕ, S.Nonempty ∧ S ⊆ U ∧ ms ≤ ratSupport db S ∧
        p = (S, ratSupport db S) := by
  unfold aprioriMine
  simp only [Finset.mem_image, Finset.mem_biUnion, Finset.mem_range]
  constructor
  · rintro ⟨S, ⟨k, hk, hS⟩, rfl⟩
    rw [aprioriLevel_eq] at hS
    simp only [Finset.mem_filter, Finset.mem_powerset] at hS
    refine ⟨S, ?_, hS.1, hS.2.2, rfl⟩
    rw [← Finset.card_pos, hS.2.1]
    omega
  · rintro ⟨S, hne, hSU, hms, rfl⟩
    have hc1 : 1 ≤ S.card := Finset.card_pos.mpr hne
    have hcU : S.card ≤ U.card := Finset.card_le_card hSU
    refine ⟨S, ⟨S.card - 1, by omega, ?_⟩, rfl⟩
    rw [aprioriLevel_eq]
    simp only [Finset.mem_filter, Finset.mem_powerset]
    exact ⟨hSU, by omega, hms⟩

/-- Counting an itemset in the transactions that contain `i` is counting the
itemset enlarged by `i`. -/
theorem countIn_filter (db : List (Finset ℕ)) (i : ℕ) (S : Finset ℕ) :
    countIn (db.filter (fun t => decide (i ∈ t))) S = countIn db (insert i S) := by
  unfold countIn
  rw [List.countP_filter]
  refine List.countP_congr (fun t _ => ?_)
  simp [Finset.insert_subset_iff, and_comm]

theorem mkRat_cast_div (a b : ℕ) : mkRat a b = (a : ℚ) / (b : ℚ) := by
  rw [Rat.mkRat_eq_div]
  rw [Int.cast_natCast]

theorem countDiv_anti (db : List (Finset ℕ)) (n : ℕ) {S1 S2 : Finset ℕ}
    (h : S1 ⊆ S2) :
    mkRat (countIn db S2) n ≤ mkRat (countIn db S1) n := by
  rw [mkRat_cast_div, mkRat_cast_div]
  have hc : (countIn db S2 : ℚ) ≤ (countIn db S1 : ℚ) := by
    exact_mod_cast countIn_anti db h
  exact div_le_div_of_nonneg_right hc (by positivity)

theorem singleton_union_insert (i : ℕ) (s : Finset ℕ) :
    ({i} : Finset ℕ) ∪ s = insert i s := by
  ext z
  simp

/-- Characterization of the FP-Growth recursion: it emits exactly the pairs
`(S ∪ suffix, count S / n)` for nonempty `S` drawn from the remaining items
whose count in the current conditional database reaches the threshold. -/
theorem mem_fpg (n : ℕ) (ms : ℚ) :
    ∀ (items : List ℕ) (db : List (Finset ℕ)) (sfx : Finset ℕ)
      (p : Finset ℕ × ℚ),
      p ∈ fpg n ms items db sfx ↔
        ∃ S : Finset ℕ, S.Nonempty ∧ S ⊆ items.toFinset ∧
          ms ≤ mkRat (countIn db S) n ∧
          p = (S ∪ sfx, mkRat (countIn db S) n) := by
  intro items
  induction items with
  | nil =>
      intro db sfx p
      simp only [fpg, List.not_mem_nil, false_iff, not_exists, not_and]
      intro S hS hsub
      rw [List.toFinset_nil, Finset.subset_empty] at hsub
      rw [hsub] at hS
      exact absurd hS (by simp)
  | cons i rest ih =>
      intro db sfx p
      have hrsub : rest.toFinset ⊆ (i :: rest).toFinset := by
        rw [List.toFinset_cons]
        exact Finset.subset_insert i rest.toFinset
      rw [fpg, List.mem_append]
      constructor
      · rintro (hl | hr)
        · by_cases hguard : ms ≤ mkRat (countIn db {i}) n
          · rw [if_pos hguard] at hl
            rcases List.mem_cons.mp hl with heq | hrec
            · refine ⟨{i}, Finset.singleton_nonempty i, by simp, hguard, ?_⟩
              rw [singleton_union_insert]
              exact heq
            · obtain ⟨S, hne, hsub, hms, rfl⟩ := (ih _ _ _).mp hrec
              refine ⟨insert i S, Finset.insert_nonempty i S, ?_, ?_, ?_⟩
              · rw [List.toFinset_cons]
                exact Finset.insert_subset_insert i hsub
              · rw [← countIn_filter]
                exact hms
              · rw [← countIn_filter, Finset.union_insert, Finset.insert_union]
          · rw [if_neg hguard] at hl
            exact absurd hl (List.not_mem_nil p)
        · obtain ⟨S, hne, hsub, hms, rfl⟩ := (ih _ _ _).mp hr
          exact ⟨S, hne, hsub.trans hrsub, hms, rfl⟩
      · rintro ⟨S, hne, hsub, hms, rfl⟩
        by_cases hiS : i ∈ S
        · have hguard : ms ≤ mkRat (countIn db {i}) n :=
            le_trans hms (countDiv_anti db n (Finset.singleton_subset_iff.mpr hiS))
          left
          rw [if_pos hguard]
          by_cases hSi : S = {i}
          · subst hSi
            refine List.mem_cons.mpr (Or.inl ?_)
            rw [singleton_union_insert]
          · have hne' : (S.erase i).Nonempty := by
              rcases Finset.eq_empty_or_nonempty (S.erase i) with he | hne'
              · exfalso
                apply hSi
                apply Finset.eq_singleton_iff_unique_mem.mpr
                refine ⟨hiS, fun j hj => ?_⟩
                by_contra hji
                have hj' : j ∈ S.erase i := Finset.mem_erase.mpr ⟨hji, hj⟩
                rw [he] at hj'
                exact absurd hj' (by simp)
              · exact hne'
            refine List.mem_cons.mpr (Or.inr ?_)
            refine (ih _ _ _).mpr ⟨S.erase i, hne', ?_, ?_, ?_⟩
            · intro z hz
              have hz' := Finset.mem_erase.mp hz
              have hzm := hsub hz'.2
              rw [List.toFinset_cons] at hzm
              rcases Finset.mem_insert.mp hzm with h | h
              · exact absurd h hz'.1
              · exact h
            · rw [countIn_filter, Finset.insert_erase hiS]
              exact hms
            · rw [countIn_filter, Finset.insert_erase hiS,
                Finset.union_insert, ← Finset.insert_union,
                Finset.insert_erase hiS]
        · right
          refine (ih _ _ _).mpr ⟨S, hne, ?_, hms, rfl⟩
          intro z hz
          have hzm := hsub hz
          rw [List.toFinset_cons] at hzm
          rcases Finset.mem_insert.mp hzm with h | h
          · exact absurd (h ▸ hz) hiS
          · exact h

theorem mem_finsetAsList {S : Finset ℕ} {a : ℕ} :
    a ∈ finsetAsList S ↔ a ∈ S := by
  unfold finsetAsList
  rw [List.mem_filter, List.mem_range, decide_eq_true_eq]
  constructor
  · rintro ⟨-, ha⟩
    exact ha
  · intro ha
    exact ⟨Nat.lt_succ_of_le (Finset.le_sup (f := id) ha), ha⟩

theorem finsetAsList_toFinset (S : Finset ℕ) :
    (finsetAsList S).toFinset = S := by
  ext a
  rw [List.mem_toFinset, mem_finsetAsList]

theorem finsetAsList_sublist {A S : Finset ℕ} (h : A ⊆ S) :
    (finsetAsList A).Sublist (finsetAsList S) := by
  unfold finsetAsList
  have h1 : ((List.range (A.sup id + 1)).filter
        (fun j => decide (j ∈ A))).Sublist
      ((List.range (S.sup id + 1)).filter (fun j => decide (j ∈ A))) :=
    List.Sublist.filter _
      (List.range_sublist.mpr (Nat.succ_le_succ (Finset.sup_mono h)))
  have h2 : (List.range (S.sup id + 1)).filter (fun j => decide (j ∈ A)) =
      ((List.range (S.sup id + 1)).filter
        (fun j => decide (j ∈ S))).filter (fun j => decide (j ∈ A)) := by
    rw [List.filter_filter]
    refine (List.filter_congr ?_).symm
    intro a _
    rcases Decidable.em (a ∈ A) with ha | ha
    · simp [ha, h ha]
    · simp [ha]
  rw [h2] at h1
  exact h1.trans (List.filter_sublist _)

theorem fpgItems_toFinset (db : List (Finset ℕ)) (U : Finset ℕ) :
    (fpgItems db U).toFinset = U := by
  unfold fpgItems
  rw [List.toFinset_eq_of_perm _ _ (List.perm_insertionSort _ _)]
  exact finsetAsList_toFinset U

/-- Characterization of the FP-Growth engine's output: exactly the pairs
`(S, support S)` for nonempty `S ⊆ U` whose support reaches `ms`. -/
theorem mem_fpgrowthMine {db : List (Finset ℕ)} {U : Finset ℕ} {ms : ℚ}
    {p : Finset ℕ × ℚ} :
    p ∈ fpgrowthMine db U ms ↔
      ∃ S : Finset ℕ, S.Nonempty ∧ S ⊆ U ∧ ms ≤ ratSupport db S ∧
        p = (S, ratSupport db S) := by
  unfold fpgrowthMine
  rw [mem_fpg]
  simp only [fpgItems_toFinset, Finset.union_empty, ratSupport]

/-- The two engines agree as sets of records, for any input at all. -/
theorem fpgrowthMine_toFinset_eq (db : List (Finset ℕ)) (U : Finset ℕ)
    (ms : ℚ) : (fpgrowthMine db U ms).toFinset = aprioriMine db U ms := by
  ext p
  rw [List.mem_toFinset, mem_fpgrowthMine, mem_aprioriMine]

theorem mem_subsetsList {S A : Finset ℕ} : A ∈ subsetsList S ↔ A ⊆ S := by
  unfold subsetsList
  rw [List.mem_map]
  constructor
  · rintro ⟨l, hl, rfl⟩
    rw [List.mem_sublists] at hl
    intro a ha
    rw [List.mem_toFinset] at ha
    exact mem_finsetAsList.mp (hl.subset ha)
  · intro hAS
    exact ⟨finsetAsList A, List.mem_sublists.mpr (finsetAsList_sublist hAS),
      finsetAsList_toFinset A⟩

theorem mem_ruleCandidates {records : List (Finset ℕ × ℚ)} {S A : Finset ℕ}
    {sup : ℚ} :
    (S, sup, A) ∈ ruleCandidates records ↔
      (S, sup) ∈ records ∧ A ⊆ S ∧ A.Nonempty ∧ A ≠ S := by
  unfold ruleCandidates
  rw [List.mem_flatMap]
  constructor
  · rintro ⟨r, hr, hmem⟩
    rw [List.mem_map] at hmem
    obtain ⟨A', hA', heq⟩ := hmem
    rw [List.mem_filter] at hA'
    have h1 : r.1 = S := congrArg Prod.fst heq
    have h2 : r.2 = sup := congrArg (fun q => q.2.1) heq
    have h3 : A' = A := congrArg (fun q => q.2.2) heq
    rw [decide_eq_true_eq] at hA'
    subst h1
    subst h3
    rw [← h2]
    exact ⟨hr, mem_subsetsList.mp hA'.1, hA'.2.1, hA'.2.2⟩
  · rintro ⟨hrec, hsub, hne, hneq⟩
    refine ⟨(S, sup), hrec, ?_⟩
    rw [List.mem_map]
    exact ⟨A, List.mem_filter.mpr
      ⟨mem_subsetsList.mpr hsub, decide_eq_true ⟨hne, hneq⟩⟩, rfl⟩

theorem mkRule_ok_iff {records : List (Finset ℕ × ℚ)} {S A : Finset ℕ}
    {sup : ℚ} {r : MiningRule} :
    mkRule records S sup A = Except.ok r ↔
      ∃ sa sc : ℚ, lookupSupport records A = some sa ∧
        lookupSupport records (S \ A) = some sc ∧
        r = MiningRule.mk A (S \ A) sup (sup / sa) (sup / sa / sc)
          (sup - sa * sc)
          (if sup / sa = 1 then none else some ((1 - sc) / (1 - sup / sa))) := by
  unfold mkRule
  rcases hA : lookupSupport records A with - | sa <;>
    rcases hC : lookupSupport records (S \ A) with - | sc <;>
      simp [eq_comm]

theorem mkRule_error_eq {records : List (Finset ℕ × ℚ)} {S A : Finset ℕ}
    {sup : ℚ} {e : MiningError}
    (h : mkRule records S sup A = Except.error e) :
    e = MiningError.missingSupport := by
  unfold mkRule at h
  rcases hA : lookupSupport records A with - | sa <;> rw [hA] at h <;>
    rcases hC : lookupSupport records (S \ A) with - | sc <;> rw [hC] at h <;>
      first
        | exact (Except.error.inj h).symm
        | exact Except.noConfusion h

theorem mkRule_error_of_missing {records : List (Finset ℕ × ℚ)}
    {S A : Finset ℕ} {sup : ℚ}
    (h : lookupSupport records A = none ∨
      lookupSupport records (S \ A) = none) :
    mkRule records S sup A = Except.error MiningError.missingSupport := by
  unfold mkRule
  rcases hA : lookupSupport records A with - | sa <;>
    rcases hC : lookupSupport records (S \ A) with - | sc <;>
      simp_all

theorem buildRules_ok_iff {records : List (Finset ℕ × ℚ)} :
    ∀ {cs : List (Finset ℕ × ℚ × Finset ℕ)} {rs : List MiningRule},
      buildRules records cs = Except.ok rs →
      ∀ r : MiningRule,
        (r ∈ rs ↔ ∃ c ∈ cs, mkRule records c.1 c.2.1 c.2.2 = Except.ok r) := by
  intro cs
  induction cs with
  | nil =>
      intro rs h r
      rw [buildRules] at h
      cases h
      simp
  | cons c cs ih =>
      intro rs h r
      rcases hm : mkRule records c.1 c.2.1 c.2.2 with e | r0
      · rw [buildRules, hm] at h
        exact Except.noConfusion h
      · rcases hb : buildRules records cs with e | rs0
        · rw [buildRules, hm, hb] at h
          exact Except.noConfusion h
        · rw [buildRules, hm, hb] at h
          have hrs : r0 :: rs0 = rs := Except.ok.inj h
          subst hrs
          simp only [List.mem_cons]
          constructor
          · rintro (rfl | hr)
            · exact ⟨c, Or.inl rfl, hm⟩
            · obtain ⟨c', hc', hok⟩ := (ih hb r).mp hr
              exact ⟨c', Or.inr hc', hok⟩
          · rintro ⟨c', hc' | hc', hok⟩
            · left
              rw [hc'] at hok
              rw [hm] at hok
              exact (Except.ok.inj hok).symm
            · exact Or.inr ((ih hb r).mpr ⟨c', hc', hok⟩)

theorem buildRules_ok_forall {records : List (Finset ℕ × ℚ)} :
    ∀ {cs : List (Finset ℕ × ℚ × Finset ℕ)} {rs : List MiningRule},
      buildRules records cs = Except.ok rs →
      ∀ c ∈ cs, ∃ r : MiningRule,
        mkRule records c.1 c.2.1 c.2.2 = Except.ok r := by
  intro cs
  induction cs with
  | nil =>
      intro rs h c hc
      exact absurd hc (List.not_mem_nil c)
  | cons c0 cs ih =>
      intro rs h c hc
      rcases hm : mkRule records c0.1 c0.2.1 c0.2.2 with e | r0
      · rw [buildRules, hm] at h
        exact Except.noConfusion h
      · rcases hb : buildRules records cs with e | rs0
        · rw [buildRules, hm, hb] at h
          exact Except.noConfusion h
        · rcases List.mem_cons.mp hc with rfl | hc'
          · exact ⟨r0, hm⟩
          · exact ih hb c hc'

theorem buildRules_error_eq {records : List (Finset ℕ × ℚ)} :
    ∀ {cs : List (Finset ℕ × ℚ × Finset ℕ)} {e : MiningError},
      buildRules records cs = Except.error e →
      e = MiningError.missingSupport := by
  intro cs
  induction cs with
  | nil =>
      intro e h
      rw [buildRules] at h
      exact Except.noConfusion h
  | cons c cs ih =>
      intro e h
      rcases hm : mkRule records c.1 c.2.1 c.2.2 with e0 | r0
      · rw [buildRules, hm] at h
        rw [← Except.error.inj h]
        exact mkRule_error_eq hm
      · rcases hb : buildRules records cs with e0 | rs0
        · rw [buildRules, hm, hb] at h
          rw [← Except.error.inj h]
          exact ih hb
        · rw [buildRules, hm, hb] at h
          exact Except.noConfusion h

/-- C1: for every valid transaction table (at least one transaction, every
transaction inside the item universe) and every `minSupport` in `(0, 1]`,
the Apriori engine and the FP-Growth engine produce set-equal collections of
frequent-itemset records — the same itemsets with the same supports — so the
two algorithm branches are interchangeable. -/
theorem c1_engines_interchangeable (db : List (Finset ℕ)) (U : Finset ℕ)
    (ms : ℚ) (_hN : 0 < db.length) (_hvalid : ∀ t ∈ db, t ⊆ U)
    (_h0 : 0 < ms) (_h1 : ms ≤ 1) :
    (fpgrowthMine db U ms).toFinset = aprioriMine db U ms :=
  fpgrowthMine_toFinset_eq db U ms

theorem c1_engines_interchangeable_witness :
    (fpgrowthMine [{0}] {0} (1 / 2)).toFinset = aprioriMine [{0}] {0} (1 / 2) :=
  c1_engines_interchangeable [{0}] {0} (1 / 2) (by decide) (by decide)
    (by norm_num) (by norm_num)

/-- C2: the post-filter returns a subset of its input records; every retained
record's itemset has exactly `k` members; and a record is retained exactly
when its itemset has `k` members, the retained pairs (itemset and support)
being input records verbatim — no support is recomputed or changed. -/
theorem c2_postFilter_pure_subset (records : List (Finset ℕ × ℚ)) (k : ℕ) :
    (∀ r ∈ postFilter records k, r ∈ records) ∧
    (∀ r ∈ postFilter records k, r.1.card = k) ∧
    (∀ r : Finset ℕ × ℚ, r ∈ postFilter records k ↔
      r ∈ records ∧ r.1.card = k) := by
  have hmem : ∀ r : Finset ℕ × ℚ, r ∈ postFilter records k ↔
      r ∈ records ∧ r.1.card = k := by
    intro r
    unfold postFilter
    rw [List.mem_filter, decide_eq_true_eq]
  exact ⟨fun r hr => ((hmem r).mp hr).1, fun r hr => ((hmem r).mp hr).2, hmem⟩

/-- C3: mining invoked with `minSupport ≤ 0` or `minSupport > 1` fails with
`InvalidParameterError` rather than returning a result, for either engine
and any transaction store. -/
theorem c3_invalid_parameter (alg : MiningAlg) (store : TransStore) (ms : ℚ)
    (h : ms ≤ 0 ∨ 1 < ms) :
    mineE alg store ms = Except.error MiningError.invalidParameter := by
  unfold mineE
  rw [if_pos h]

theorem c3_invalid_parameter_witness :
    mineE MiningAlg.aprioriAlg (TransStore.mk [{0}] {0}) 2 =
      Except.error MiningError.invalidParameter :=
  c3_invalid_parameter MiningAlg.aprioriAlg (TransStore.mk [{0}] {0}) 2
    (Or.inr (by norm_num))

/-- C4: a transaction table with zero rows or zero columns makes the pipeline
fail with `InvalidInputError`; moreover every core error — from store
construction or from mining — is surfaced to the caller unmodified, never
replaced by a default result or swallowed. -/
theorem c4_empty_input_and_propagation (alg : MiningAlg) (tbl : BoolTable)
    (ms : ℚ) :
    (tbl.rows.length = 0 ∨ tbl.nCols = 0 →
      pipeline alg tbl ms = Except.error MiningError.invalidInput) ∧
    (∀ e : MiningError, buildStore tbl = Except.error e →
      pipeline alg tbl ms = Except.error e) ∧
    (∀ (store : TransStore) (e : MiningError),
      buildStore tbl = Except.ok store →
      mineE alg store ms = Except.error e →
      pipeline alg tbl ms = Except.error e) := by
  refine ⟨?_, ?_, ?_⟩
  · intro h
    have hb : buildStore tbl = Except.error MiningError.invalidInput := by
      unfold buildStore
      rw [if_pos h]
    unfold pipeline
    rw [hb]
  · intro e he
    unfold pipeline
    rw [he]
  · intro store e hs hm
    unfold pipeline
    rw [hs]
    exact hm

theorem c4_empty_input_and_propagation_witness :
    pipeline MiningAlg.aprioriAlg (BoolTable.mk 3 []) (1 / 2) =
      Except.error MiningError.invalidInput :=
  (c4_empty_input_and_propagation MiningAlg.aprioriAlg (BoolTable.mk 3 [])
    (1 / 2)).1 (Or.inl rfl)

/-- C8: in a mined collection, for any two records `(S1, s1)` and `(S2, s2)`
with `S1` a strict subset of `S2`, `s1 ≥ s2` (anti-monotonicity), and no two
records share the same itemset (records with equal itemsets carry equal
supports). -/
theorem c8_antimono_and_unique (db : List (Finset ℕ)) (U : Finset ℕ)
    (ms : ℚ) (S1 S2 : Finset ℕ) (s1 s2 : ℚ)
    (h1 : (S1, s1) ∈ aprioriMine db U ms)
    (h2 : (S2, s2) ∈ aprioriMine db U ms) :
    (S1 ⊂ S2 → s2 ≤ s1) ∧ (S1 = S2 → s1 = s2) := by
  obtain ⟨T1, -, -, -, he1⟩ := mem_aprioriMine.mp h1
  obtain ⟨T2, -, -, -, he2⟩ := mem_aprioriMine.mp h2
  have hf1 : S1 = T1 := congrArg Prod.fst he1
  have hf2 : S2 = T2 := congrArg Prod.fst he2
  have hs1 : s1 = ratSupport db S1 := by
    rw [hf1]
    exact congrArg Prod.snd he1
  have hs2 : s2 = ratSupport db S2 := by
    rw [hf2]
    exact congrArg Prod.snd he2
  constructor
  · intro hss
    rw [hs1, hs2]
    exact ratSupport_anti db hss.subset
  · intro heq
    rw [hs1, hs2, heq]


theorem c8_antimono_and_unique_witness :
    (({0} : Finset ℕ) ⊂ {0, 1} → mkRat 1 2 ≤ (1 : ℚ)) ∧
    (({0} : Finset ℕ) = {0, 1} → (1 : ℚ) = mkRat 1 2) :=
  c8_antimono_and_unique [{0}, {0, 1}] {0, 1} (mkRat 1 2) {0} {0, 1} 1
    (mkRat 1 2) (by decide) (by decide)

/-- C9: on the five transactions {milk,bread}, {milk,butter}, {bread,butter},
{milk,bread,butter}, {bread,butter} (milk = 0, bread = 1, butter = 2) with
minSupport 0.2, both engines return exactly the seven records {milk}:0.6,
{bread}:0.8, {butter}:0.8, {milk,bread}:0.4, {milk,butter}:0.4,
{bread,butter}:0.6, {milk,bread,butter}:0.2. -/
theorem c9_scenario_a :
    aprioriMine [({0, 1} : Finset ℕ), {0, 2}, {1, 2}, {0, 1, 2}, {1, 2}]
        {0, 1, 2} (mkRat 1 5) =
      {({0}, mkRat 3 5), ({1}, mkRat 4 5), ({2}, mkRat 4 5),
        ({0, 1}, mkRat 2 5), ({0, 2}, mkRat 2 5), ({1, 2}, mkRat 3 5),
        ({0, 1, 2}, mkRat 1 5)} ∧
    (fpgrowthMine [({0, 1} : Finset ℕ), {0, 2}, {1, 2}, {0, 1, 2}, {1, 2}]
        {0, 1, 2} (mkRat 1 5)).toFinset =
      {({0}, mkRat 3 5), ({1}, mkRat 4 5), ({2}, mkRat 4 5),
        ({0, 1}, mkRat 2 5), ({0, 2}, mkRat 2 5), ({1, 2}, mkRat 3 5),
        ({0, 1, 2}, mkRat 1 5)} := by
  decide

/-- C10: when any column of the input table has object dtype, the program
one-hot encodes the table itself before mining (rather than rejecting the
input): the whole table is mapped column by column, numeric columns pass
through unchanged, and an object column yields one indicator column per
distinct value, each indicator being boolean-valued (0/1) with one entry per
original row. -/
theorem c10_onehot_encoding (df : List TableCol)
    (h : df.any isObjCol = true) :
    encodeTable df = df.flatMap dummify ∧
    (∀ c ∈ df, isObjCol c = false → dummify c = [c]) ∧
    (∀ nm vs, (dummify (TableCol.obj nm vs)).length = vs.dedup.length) ∧
    (∀ nm vs c, c ∈ dummify (TableCol.obj nm vs) →
      isObjCol c = false ∧ (∀ x ∈ colVals c, x = 0 ∨ x = 1) ∧
      (colVals c).length = vs.length) := by
  refine ⟨?_, ?_, ?_, ?_⟩
  · unfold encodeTable
    rw [if_pos h]
    rfl
  · intro c _ hobj
    cases c with
    | num nm vs => rfl
    | obj nm vs => exact absurd hobj (by simp [isObjCol])
  · intro nm vs
    unfold dummify
    rw [List.length_map]
  · intro nm vs c hc
    unfold dummify at hc
    rw [List.mem_map] at hc
    obtain ⟨v, hv, rfl⟩ := hc
    refine ⟨rfl, ?_, ?_⟩
    · intro x hx
      unfold colVals at hx
      rw [List.mem_map] at hx
      obtain ⟨y, hy, rfl⟩ := hx
      by_cases hyv : y = v
      · rw [if_pos hyv]
        right
        rfl
      · rw [if_neg hyv]
        left
        rfl
    · unfold colVals
      rw [List.length_map]

theorem c10_onehot_encoding_witness :
    encodeTable [TableCol.obj ("p") ["a", "b"]] =
      ([TableCol.obj ("p") ["a", "b"]]).flatMap dummify :=
  (c10_onehot_encoding [TableCol.obj ("p") ["a", "b"]] (by decide)).1

/-- C5: rule generation takes a metric from {confidence, lift, leverage,
conviction} and a minThreshold, and the produced rules are exactly the
candidates `A → S \ A` (for records `(S, sup)` and nonempty proper subsets
`A`) carrying confidence `s(S)/s(A)`, lift `confidence/s(consequent)`,
leverage `s(S) − s(A)·s(consequent)` and conviction
`(1 − s(consequent))/(1 − confidence)` (infinite — `none` — at
confidence 1), kept iff the chosen metric's value reaches the threshold. -/
theorem c5_rule_metrics_and_threshold (records : List (Finset ℕ × ℚ))
    (m : RuleMetric) (θ : ℚ) (rules : List MiningRule)
    (h : associationRules records m θ = Except.ok rules) (r : MiningRule) :
    r ∈ rules ↔
      ((∃ (S A : Finset ℕ) (sup sa sc : ℚ),
        (S, sup) ∈ records ∧ A ⊆ S ∧ A.Nonempty ∧ A ≠ S ∧
        lookupSupport records A = some sa ∧
        lookupSupport records (S \ A) = some sc ∧
        r = MiningRule.mk A (S \ A) sup (sup / sa) (sup / sa / sc)
          (sup - sa * sc)
          (if sup / sa = 1 then none
           else some ((1 - sc) / (1 - sup / sa)))) ∧
       metricHolds m θ r = true) := by
  unfold associationRules at h
  rcases hb : buildRules records (ruleCandidates records) with e | rs <;>
    rw [hb] at h
  · exact Except.noConfusion h
  · have hrules : rs.filter (metricHolds m θ) = rules := Except.ok.inj h
    subst hrules
    rw [List.mem_filter]
    constructor
    · rintro ⟨hr, hmet⟩
      refine ⟨?_, hmet⟩
      obtain ⟨c, hc, hok⟩ := (buildRules_ok_iff hb r).mp hr
      have hcand := mem_ruleCandidates.mp
        (show (c.1, c.2.1, c.2.2) ∈ ruleCandidates records from hc)
      obtain ⟨sa, sc, hA, hC, hreq⟩ := mkRule_ok_iff.mp hok
      exact ⟨c.1, c.2.2, c.2.1, sa, sc, hcand.1, hcand.2.1, hcand.2.2.1,
        hcand.2.2.2, hA, hC, hreq⟩
    · rintro ⟨⟨S, A, sup, sa, sc, hrec, hsub, hne, hneq, hA, hC, hreq⟩, hmet⟩
      refine ⟨?_, hmet⟩
      refine (buildRules_ok_iff hb r).mpr
        ⟨(S, sup, A), mem_ruleCandidates.mpr ⟨hrec, hsub, hne, hneq⟩, ?_⟩
      rw [mkRule_ok_iff]
      exact ⟨sa, sc, hA, hC, hreq⟩

theorem c5_rule_metrics_and_threshold_witness :
    MiningRule.mk ∅ ∅ 0 0 0 0 none ∈ ([] : List MiningRule) ↔
      ((∃ (S A : Finset ℕ) (sup sa sc : ℚ),
        (S, sup) ∈ ([] : List (Finset ℕ × ℚ)) ∧ A ⊆ S ∧ A.Nonempty ∧ A ≠ S ∧
        lookupSupport [] A = some sa ∧
        lookupSupport [] (S \ A) = some sc ∧
        MiningRule.mk ∅ ∅ 0 0 0 0 none =
          MiningRule.mk A (S \ A) sup (sup / sa) (sup / sa / sc)
            (sup - sa * sc)
            (if sup / sa = 1 then none
             else some ((1 - sc) / (1 - sup / sa)))) ∧
       metricHolds RuleMetric.lift 0 (MiningRule.mk ∅ ∅ 0 0 0 0 none) = true) :=
  c5_rule_metrics_and_threshold [] RuleMetric.lift 0 [] (by rfl)
    (MiningRule.mk ∅ ∅ 0 0 0 0 none)

/-- C6: whenever rule generation needs the support of an antecedent or
consequent that is absent from the supplied records (for example removed by
the post-filter), it fails with `MissingSupportError` rather than producing
rules. -/
theorem c6_missing_support_error (records : List (Finset ℕ × ℚ))
    (m : RuleMetric) (θ : ℚ) (S A : Finset ℕ) (sup : ℚ)
    (hrec : (S, sup) ∈ records) (hsub : A ⊆ S) (hne : A.Nonempty)
    (hneq : A ≠ S)
    (hmiss : lookupSupport records A = none ∨
      lookupSupport records (S \ A) = none) :
    associationRules records m θ =
      Except.error MiningError.missingSupport := by
  have hc : (S, sup, A) ∈ ruleCandidates records :=
    mem_ruleCandidates.mpr ⟨hrec, hsub, hne, hneq⟩
  unfold associationRules
  rcases hb : buildRules records (ruleCandidates records) with e | rs
  · have he := buildRules_error_eq hb
    subst he
    rfl
  · exfalso
    obtain ⟨r, hok⟩ := buildRules_ok_forall hb (S, sup, A) hc
    have hok2 : mkRule records S sup A = Except.ok r := hok
    rw [mkRule_error_of_missing hmiss] at hok2
    exact Except.noConfusion hok2

theorem c6_missing_support_error_witness :
    associationRules [({0, 1}, mkRat 1 2)] RuleMetric.lift 1 =
      Except.error MiningError.missingSupport :=
  c6_missing_support_error [({0, 1}, mkRat 1 2)] RuleMetric.lift 1
    {0, 1} {0} (mkRat 1 2) (by decide) (by decide) (by decide) (by decide)
    (Or.inl (by decide))

/-- C7: every rule produced by the rule generator from records carrying the
true supports of a transaction list has support equal to the support of the
itemset `antecedent ∪ consequent`. -/
theorem c7_rule_support (db : List (Finset ℕ))
    (records : List (Finset ℕ × ℚ)) (m : RuleMetric) (θ : ℚ)
    (rules : List MiningRule)
    (hrec : ∀ (S : Finset ℕ) (sup : ℚ), (S, sup) ∈ records →
      sup = ratSupport db S)
    (h : associationRules records m θ = Except.ok rules)
    (r : MiningRule) (hr : r ∈ rules) :
    r.support = ratSupport db (r.antecedent ∪ r.consequent) := by
  unfold associationRules at h
  rcases hb : buildRules records (ruleCandidates records) with e | rs <;>
    rw [hb] at h
  · exact Except.noConfusion h
  · have hrules : rs.filter (metricHolds m θ) = rules := Except.ok.inj h
    subst hrules
    rw [List.mem_filter] at hr
    obtain ⟨c, hc, hok⟩ := (buildRules_ok_iff hb r).mp hr.1
    have hcand := mem_ruleCandidates.mp
      (show (c.1, c.2.1, c.2.2) ∈ ruleCandidates records from hc)
    obtain ⟨sa, sc, hA, hC, hreq⟩ := mkRule_ok_iff.mp hok
    subst hreq
    have hu : c.2.2 ∪ (c.1 \ c.2.2) = c.1 :=
      Finset.union_sdiff_of_subset hcand.2.1
    show c.2.1 = ratSupport db (c.2.2 ∪ (c.1 \ c.2.2))
    rw [hu]
    exact hrec c.1 c.2.1 hcand.1

theorem c7_rule_support_witness :
    sampleRule1.support =
      ratSupport sampleDb (sampleRule1.antecedent ∪ sampleRule1.consequent) :=
  c7_rule_support sampleDb sampleRecords RuleMetric.leverage 0
    (List.filter (metricHolds RuleMetric.leverage 0)
      [sampleRule1, sampleRule2])
    (by
      intro S sup hmem
      unfold sampleRecords at hmem
      simp only [List.mem_cons, List.not_mem_nil, or_false] at hmem
      rcases hmem with h | h | h <;>
        (obtain ⟨rfl, rfl⟩ := Prod.mk.inj h; decide))
    (by
      have hbuild : buildRules sampleRecords (ruleCandidates sampleRecords) =
          Except.ok [sampleRule1, sampleRule2] := rfl
      unfold associationRules
      rw [hbuild])
    sampleRule1
    (List.mem_filter.mpr ⟨List.mem_cons_self _ _,
      decide_eq_true (by
        show (0 : ℚ) ≤ sampleRule1.leverage
        unfold sampleRule1
        show (0 : ℚ) ≤ mkRat 1 2 - mkRat 1 2 * mkRat 1 2
        rw [Rat.mkRat_eq_div]
        norm_num)⟩)
